import Mathlib

/-!
Verification of the DDoS detection core (`src/src/main.h`).

The repository ships the data model as a C header: the binary-trie node
(`node_t`), the interval, port, extra (per-host port tracker), cluster, host,
parameters, flow and graph structures, together with the numeric constants
(`ALL_PORTS`, `BITS_PORT`, `MASK_PORT`, `BITS_IP4`, `MASK_IP4`, `HOSTS_INIT`,
`PORTS_INIT`, `CLUSTERS`, `OBSERVATIONS`, ...).  The operational routines
(trie insert/lookup/enumerate, `ingest`, `tick`, the k-means clusterer) are
declared by the specification but their implementation file is not part of the
sources, so they are modelled here from the specification's own description,
over the data model of the header.  Doubles (`intvl_t.syn_packets`,
`host_t.distance`, `cluster_t.dev`) are modelled as exact rationals; machine
integers are modelled as `Nat` with explicit bounds where overflow or array
bounds matter.
-/

namespace DDoS

/-! ### Constants from `src/src/main.h` -/

/-- `#define PORTS_INIT 8` — init size of the array with network ports. -/
def PORTS_INIT : Nat := 8

/-- `#define HOSTS_INIT 32768` — init size of the array with hosts. -/
def HOSTS_INIT : Nat := 32768

/-- `#define ALL_PORTS 65535` — size of the `graph_t.ports` histogram array
(`uint32_t ports[ALL_PORTS]`). -/
def ALL_PORTS : Nat := 65535

/-- `#define BITS_PORT 16` — number of bits in a network port. -/
def BITS_PORT : Nat := 16

/-- `#define MASK_PORT 0x8000` — mask number for a network port. -/
def MASK_PORT : Nat := 0x8000

/-- `#define BITS_IP4 32` — number of bits in an IPv4 address. -/
def BITS_IP4 : Nat := 32

/-- `#define MASK_IP4 0x80000000` — mask number for a 32 bit address. -/
def MASK_IP4 : Nat := 0x80000000

/-- `#define CLUSTERS 2` — default number of clusters for k-means. -/
def CLUSTERS : Nat := 2

/-- `#define OBSERVATIONS 2` — default minimum number of observations in a
cluster. -/
def OBSERVATIONS : Nat := 2

/-- `#define square(x) ((x) * (x))` — square function used in k-means,
over rationals modelling the C `double`. -/
def square (x : ℚ) : ℚ := x * x

/-- The initial mask bit singles out the most significant bit of the key:
`MASK_PORT` is bit `BITS_PORT - 1` and `MASK_IP4` is bit `BITS_IP4 - 1`. -/
lemma mask_is_msb : MASK_PORT = 2 ^ (BITS_PORT - 1) ∧ MASK_IP4 = 2 ^ (BITS_IP4 - 1) := by
  constructor <;> decide

/-- `flow_t.dst_port` is a `uint16_t`: the 16-bit port values. -/
def isPortValue (p : Nat) : Prop := p < 2 ^ BITS_PORT

/-- In-bounds predicate for the global per-interval port histogram
`graph_t.ports`, declared `uint32_t ports[ALL_PORTS]`: the valid indices are
`0 .. ALL_PORTS - 1`. -/
def portsIndexInBounds (p : Nat) : Prop := p < ALL_PORTS

/-! ### The bitwise trie

`node_t` (`src/src/main.h:139`): a node holds a pointer `left` taken when the
current key bit is 1, a pointer `right` taken when the bit is 0, and a value
pointer `val` set on leaves.  Null pointers become `Option`. -/

/-- Binary trie node mirroring `node_t`: `left` child for bit 1, `right`
child for bit 0, optional leaf value `val`. -/
inductive node (V : Type) : Type where
  | mk (left : Option (node V)) (right : Option (node V)) (val : Option V)

/-- Modelled from the spec: `TrieIndex.lookup(key)` (the trie routines are not
in `src/`, only `node_t` and the bit constants are).  Descends `w` bits of
`key` most-significant-bit first — the C code tests `key & mask` with the mask
starting at `MASK_IP4`/`MASK_PORT` and halving at each level, which is bit
`w - 1` down to bit `0` — going `left` on bit 1 and `right` on bit 0, and
returns the leaf value at depth `w`. -/
def lookup {V : Type} : Nat → node V → Nat → Option V
  | 0, node.mk _ _ v, _ => v
  | w + 1, node.mk l r _, key =>
    match (if key.testBit w then l else r) with
    | none => none
    | some c => lookup w c key

/-- Lookup from an optional root (the root pointer of `graph_t`/`extra_t` may
be null). -/
def lookupOpt {V : Type} (w : Nat) (t : Option (node V)) (key : Nat) : Option V :=
  match t with
  | none => none
  | some n => lookup w n key

/-- Modelled from the spec: `TrieIndex.insert_or_get(key, make_value)` (the
trie routines are not in `src/`).  Walks the `w` key bits most-significant-bit
first, allocating missing nodes along the path; at depth `w`, returns the
existing leaf value if present, otherwise stores the supplied value.  Returns
the new root together with the resulting value. -/
def insert_or_get {V : Type} : Nat → Option (node V) → Nat → V → node V × V
  | 0, none, _, v => (node.mk none none (some v), v)
  | 0, some (node.mk l r none), _, v => (node.mk l r (some v), v)
  | 0, some (node.mk l r (some v0)), _, _ => (node.mk l r (some v0), v0)
  | w + 1, none, key, v =>
    let p := insert_or_get w none key v
    if key.testBit w then (node.mk (some p.1) none none, p.2)
    else (node.mk none (some p.1) none, p.2)
  | w + 1, some (node.mk l r val), key, v =>
    if key.testBit w then
      let p := insert_or_get w l key v
      (node.mk (some p.1) r val, p.2)
    else
      let p := insert_or_get w r key v
      (node.mk l (some p.1) val, p.2)

/-- Modelled from the spec: `TrieIndex.enumerate(root)` (not in `src/`) —
the `(key, value)` pairs of the subtree, bit-order, the 0-side (`right`)
before the 1-side (`left`), so that the most-significant-bit-first paths come
out in ascending numeric key order.  `pre` is the numeric value of the path
taken so far. -/
def enumerate {V : Type} : Nat → Option (node V) → Nat → List (Nat × V)
  | _, none, _ => []
  | 0, some (node.mk _ _ none), _ => []
  | 0, some (node.mk _ _ (some v)), pre => [(pre, v)]
  | w + 1, some (node.mk l r _), pre =>
    enumerate w r (2 * pre) ++ enumerate w l (2 * pre + 1)

/-- Insert a list of keys in order, key `k` carrying value `vf k`. -/
def insertAll {V : Type} (w : Nat) (vf : Nat → V) : List Nat → Option (node V) → Option (node V)
  | [], t => t
  | k :: ks, t => insertAll w vf ks (some (insert_or_get w t k (vf k)).1)

/-- Number of leaves (nodes at depth `w` carrying a value) of a trie. -/
def leafCount {V : Type} : Nat → Option (node V) → Nat
  | _, none => 0
  | 0, some (node.mk _ _ val) => if val.isSome then 1 else 0
  | w + 1, some (node.mk l r _) => leafCount w l + leafCount w r

end DDoS

namespace DDoS

/-! ### Trie lemmas -/

/-- `lookup` only inspects the low `w` bits of the key. -/
lemma lookup_mod {V : Type} (w : Nat) (c : node V) (k : Nat) :
    lookup w c (k % 2 ^ w) = lookup w c k := by
  induction w generalizing c k with
  | zero => cases c; rfl
  | succ w ih =>
    cases c with
    | mk l r val =>
      have hbit : (k % 2 ^ (w + 1)).testBit w = k.testBit w := by
        simp [Nat.testBit_mod_two_pow]
      have hmod : k % 2 ^ (w + 1) % 2 ^ w = k % 2 ^ w :=
        Nat.mod_mod_of_dvd k (Nat.pow_dvd_pow 2 (Nat.le_succ w))
      have key : ∀ c' : node V, lookup w c' (k % 2 ^ (w + 1)) = lookup w c' k := by
        intro c'
        rw [← ih c' (k % 2 ^ (w + 1)), hmod, ih c' k]
      cases hb : k.testBit w with
      | true =>
        cases l with
        | none => simp [lookup, hbit, hb]
        | some c' => simp [lookup, hbit, hb, key]
      | false =>
        cases r with
        | none => simp [lookup, hbit, hb]
        | some c' => simp [lookup, hbit, hb, key]

/-- After `insert_or_get`, looking up the inserted key returns exactly the
value the insertion reported. -/
lemma lookup_insert_self {V : Type} (w k : Nat) (t : Option (node V)) (v : V) :
    lookup w (insert_or_get w t k v).1 k = some (insert_or_get w t k v).2 := by
  induction w generalizing t with
  | zero =>
    match t with
    | none => rfl
    | some (node.mk l r none) => rfl
    | some (node.mk l r (some v0)) => rfl
  | succ w ih =>
    match t with
    | none =>
      cases hb : k.testBit w with
      | true => simp [insert_or_get, lookup, hb, ih none]
      | false => simp [insert_or_get, lookup, hb, ih none]
    | some (node.mk l r val) =>
      cases hb : k.testBit w with
      | true => simp [insert_or_get, lookup, hb, ih l]
      | false => simp [insert_or_get, lookup, hb, ih r]

/-- When the key was absent, `insert_or_get` reports the freshly supplied
value. -/
lemma insert_val_of_not_found {V : Type} (w k : Nat) (t : Option (node V)) (v : V)
    (h : lookupOpt w t k = none) : (insert_or_get w t k v).2 = v := by
  induction w generalizing t with
  | zero =>
    match t with
    | none => rfl
    | some (node.mk l r none) => rfl
    | some (node.mk l r (some v0)) => simp [lookupOpt, lookup] at h
  | succ w ih =>
    match t with
    | none =>
      cases hb : k.testBit w with
      | true => simpa [insert_or_get, hb] using ih none (by simp [lookupOpt])
      | false => simpa [insert_or_get, hb] using ih none (by simp [lookupOpt])
    | some (node.mk l r val) =>
      cases hb : k.testBit w with
      | true =>
        have hl : lookupOpt w l k = none := by
          cases l with
          | none => simp [lookupOpt]
          | some c => simpa [lookupOpt, lookup, hb] using h
        simpa [insert_or_get, hb] using ih l hl
      | false =>
        have hr : lookupOpt w r k = none := by
          cases r with
          | none => simp [lookupOpt]
          | some c => simpa [lookupOpt, lookup, hb] using h
        simpa [insert_or_get, hb] using ih r hr

/-- When the key is already present, `insert_or_get` returns the existing
leaf value and the structurally unchanged trie (no new nodes). -/
lemma insert_of_lookup_some {V : Type} (w k : Nat) (n : node V) (v0 v : V)
    (h : lookup w n k = some v0) : insert_or_get w (some n) k v = (n, v0) := by
  induction w generalizing n with
  | zero =>
    match n with
    | node.mk l r none => simp [lookup] at h
    | node.mk l r (some v1) =>
      simp only [lookup] at h
      cases h
      rfl
  | succ w ih =>
    match n with
    | node.mk l r val =>
      cases hb : k.testBit w with
      | true =>
        match l, h with
        | some c, h =>
          have hc : lookup w c k = some v0 := by simpa [lookup, hb] using h
          simp [insert_or_get, hb, ih c hc]
        | none, h => simp [lookup, hb] at h
      | false =>
        match r, h with
        | some c, h =>
          have hc : lookup w c k = some v0 := by simpa [lookup, hb] using h
          simp [insert_or_get, hb, ih c hc]
        | none, h => simp [lookup, hb] at h

/-- Two keys agreeing on bit `w` and on their low `w` bits agree on their low
`w + 1` bits. -/
lemma mod_succ_eq_of_testBit_eq (w k k' : Nat) (hbit : k.testBit w = k'.testBit w)
    (hEq : k % 2 ^ w = k' % 2 ^ w) : k % 2 ^ (w + 1) = k' % 2 ^ (w + 1) := by
  apply Nat.eq_of_testBit_eq
  intro i
  rcases lt_trichotomy i w with h | h | h
  · have h2 := congrArg (fun m => m.testBit i) hEq
    simp only [Nat.testBit_mod_two_pow] at h2 ⊢
    simpa [h, Nat.lt_succ_of_lt h] using h2
  · subst h
    simp [Nat.testBit_mod_two_pow, hbit]
  · simp [Nat.testBit_mod_two_pow, show ¬ i < w + 1 by omega]

/-- Inserting key `k` does not disturb the binding of any key `k'` whose low
`w` bits differ from those of `k`. -/
lemma lookup_insert_other {V : Type} (w k k' : Nat) (t : Option (node V)) (v : V)
    (hne : k % 2 ^ w ≠ k' % 2 ^ w) :
    lookupOpt w (some (insert_or_get w t k v).1) k' = lookupOpt w t k' := by
  induction w generalizing t with
  | zero => simp [Nat.mod_one] at hne
  | succ w ih =>
    have hlow : k.testBit w = k'.testBit w → k % 2 ^ w ≠ k' % 2 ^ w := by
      intro hbit hEq
      exact hne (mod_succ_eq_of_testBit_eq w k k' hbit hEq)
    match t with
    | none =>
      cases hb : k.testBit w with
      | true =>
        cases hb' : k'.testBit w with
        | true =>
          have h := ih none (hlow (hb.trans hb'.symm))
          simpa [insert_or_get, lookupOpt, lookup, hb, hb'] using h
        | false => simp [insert_or_get, lookupOpt, lookup, hb, hb']
      | false =>
        cases hb' : k'.testBit w with
        | true => simp [insert_or_get, lookupOpt, lookup, hb, hb']
        | false =>
          have h := ih none (hlow (hb.trans hb'.symm))
          simpa [insert_or_get, lookupOpt, lookup, hb, hb'] using h
    | some (node.mk l r val) =>
      cases hb : k.testBit w with
      | true =>
        cases hb' : k'.testBit w with
        | true =>
          have h := ih l (hlow (hb.trans hb'.symm))
          cases l with
          | none => simpa [insert_or_get, lookupOpt, lookup, hb, hb'] using h
          | some c => simpa [insert_or_get, lookupOpt, lookup, hb, hb'] using h
        | false =>
          cases r with
          | none => simp [insert_or_get, lookupOpt, lookup, hb, hb']
          | some c => simp [insert_or_get, lookupOpt, lookup, hb, hb']
      | false =>
        cases hb' : k'.testBit w with
        | true =>
          cases l with
          | none => simp [insert_or_get, lookupOpt, lookup, hb, hb']
          | some c => simp [insert_or_get, lookupOpt, lookup, hb, hb']
        | false =>
          have h := ih r (hlow (hb.trans hb'.symm))
          cases r with
          | none => simpa [insert_or_get, lookupOpt, lookup, hb, hb'] using h
          | some c => simpa [insert_or_get, lookupOpt, lookup, hb, hb'] using h

/-- A key below `2 ^ (w + 1)` whose bit `w` is clear is below `2 ^ w`. -/
lemma lt_pow_of_testBit_false (w low : Nat) (hlt : low < 2 ^ (w + 1))
    (hbit : low.testBit w = false) : low < 2 ^ w := by
  by_contra hge
  push_neg at hge
  have hm : low - 2 ^ w < 2 ^ w := by
    have := Nat.pow_succ 2 w
    omega
  have : low.testBit w = true := by
    have hrepr : low = 2 ^ w + (low - 2 ^ w) := by omega
    rw [hrepr, Nat.testBit_two_pow_add_eq, Nat.testBit_lt_two_pow hm]
    rfl
  simp [this] at hbit

/-- Characterisation of `enumerate`: `(k, v)` is listed exactly when `k`
splits as the path prefix `pre` followed by `w` key bits that look up to
`v`. -/
lemma mem_enumerate {V : Type} (w : Nat) (t : Option (node V)) (pre k : Nat) (v : V) :
    (k, v) ∈ enumerate w t pre ↔
      ∃ low, low < 2 ^ w ∧ k = pre * 2 ^ w + low ∧ lookupOpt w t low = some v := by
  induction w generalizing t pre k with
  | zero =>
    match t with
    | none => simp [enumerate, lookupOpt]
    | some (node.mk l r none) => simp [enumerate, lookupOpt, lookup]
    | some (node.mk l r (some v0)) =>
      constructor
      · intro h
        simp only [enumerate, List.mem_singleton, Prod.mk.injEq] at h
        exact ⟨0, by omega, by omega, by simp [lookupOpt, lookup, h.2]⟩
      · rintro ⟨low, hlow, hk, hl⟩
        have hlow0 : low = 0 := by omega
        subst hlow0
        simp only [lookupOpt, lookup] at hl
        cases hl
        simp [enumerate, hk]
  | succ w ih =>
    match t with
    | none => simp [enumerate, lookupOpt]
    | some (node.mk l r val) =>
      have hpow : 2 ^ (w + 1) = 2 ^ w * 2 := Nat.pow_succ 2 w
      constructor
      · intro h
        simp only [enumerate, List.mem_append] at h
        rcases h with h | h
        · obtain ⟨low, hlow, hk, hl⟩ := (ih r (2 * pre) k).1 h
          refine ⟨low, by omega, by rw [hpow, hk]; ring, ?_⟩
          have hbit : low.testBit w = false := Nat.testBit_lt_two_pow hlow
          match r, hl with
          | some c, hl => simpa [lookupOpt, lookup, hbit] using hl
        · obtain ⟨low, hlow, hk, hl⟩ := (ih l (2 * pre + 1) k).1 h
          refine ⟨2 ^ w + low, by omega, by rw [hpow, hk]; ring, ?_⟩
          have hbit : (2 ^ w + low).testBit w = true := by
            rw [Nat.testBit_two_pow_add_eq, Nat.testBit_lt_two_pow hlow]
            rfl
          match l, hl with
          | some c, hl =>
            have hmod : (2 ^ w + low) % 2 ^ w = low := by
              rw [Nat.add_mod_left, Nat.mod_eq_of_lt hlow]
            have := lookup_mod w c (2 ^ w + low)
            rw [hmod] at this
            simp only [lookupOpt, lookup, hbit, if_true] at hl ⊢
            rw [this] at hl
            exact hl
      · rintro ⟨low, hlow, hk, hl⟩
        simp only [enumerate, List.mem_append]
        cases hbit : low.testBit w with
        | false =>
          have hlow' : low < 2 ^ w := lt_pow_of_testBit_false w low hlow hbit
          left
          refine (ih r (2 * pre) k).2 ⟨low, hlow', by rw [hpow] at hk; rw [hk]; ring, ?_⟩
          match r, hl with
          | some c, hl => simpa [lookupOpt, lookup, hbit] using hl
          | none, hl => simp [lookupOpt, lookup, hbit] at hl
        | true =>
          have hge : 2 ^ w ≤ low := Nat.testBit_implies_ge hbit
          obtain ⟨m, hm⟩ : ∃ m, low = 2 ^ w + m := ⟨low - 2 ^ w, by omega⟩
          subst hm
          have hmlt : m < 2 ^ w := by rw [hpow] at hlow; omega
          right
          refine (ih l (2 * pre + 1) k).2
            ⟨2 ^ w + m - 2 ^ w, by omega, by rw [hpow] at hk; rw [hk]; ring_nf; omega, ?_⟩
          match l, hl with
          | some c, hl =>
            have hmod : (2 ^ w + m) % 2 ^ w = m := by
              rw [Nat.add_mod_left, Nat.mod_eq_of_lt hmlt]
            have hlm := lookup_mod w c (2 ^ w + m)
            rw [hmod] at hlm
            simp only [lookupOpt, lookup, hbit, if_true] at hl ⊢
            rw [show 2 ^ w + m - 2 ^ w = m from by omega, hlm]
            exact hl
          | none, hl => simp [lookupOpt, lookup, hbit] at hl

/-- Every key listed by `enumerate` lies in the numeric range of its path
prefix. -/
lemma enumerate_key_bounds {V : Type} (w : Nat) (t : Option (node V)) (pre k : Nat) (v : V)
    (h : (k, v) ∈ enumerate w t pre) : pre * 2 ^ w ≤ k ∧ k < (pre + 1) * 2 ^ w := by
  obtain ⟨low, hlow, hk, -⟩ := (mem_enumerate w t pre k v).1 h
  constructor <;> [omega; (rw [Nat.succ_mul]; omega)]

/-- `enumerate` lists keys in strictly ascending numeric order. -/
lemma enumerate_pairwise {V : Type} (w : Nat) (t : Option (node V)) (pre : Nat) :
    (enumerate w t pre).Pairwise (fun a b => a.1 < b.1) := by
  induction w generalizing t pre with
  | zero =>
    match t with
    | none => simp [enumerate]
    | some (node.mk l r none) => simp [enumerate]
    | some (node.mk l r (some v0)) => simp [enumerate]
  | succ w ih =>
    match t with
    | none => simp [enumerate]
    | some (node.mk l r val) =>
      simp only [enumerate]
      rw [List.pairwise_append]
      refine ⟨ih r (2 * pre), ih l (2 * pre + 1), ?_⟩
      intro a ha b hb
      have h1 := (enumerate_key_bounds w r (2 * pre) a.1 a.2 ha).2
      have h2 := (enumerate_key_bounds w l (2 * pre + 1) b.1 b.2 hb).1
      have : (2 * pre + 1) * 2 ^ w = (2 * pre) * 2 ^ w + 2 ^ w := by ring
      omega

/-- Keys not inserted by `insertAll` keep their previous binding. -/
lemma lookupOpt_insertAll_not_mem {V : Type} (w : Nat) (vf : Nat → V) (ks : List Nat)
    (t : Option (node V)) (k : Nat) (hk : ∀ j ∈ ks, j % 2 ^ w ≠ k % 2 ^ w) :
    lookupOpt w (insertAll w vf ks t) k = lookupOpt w t k := by
  induction ks generalizing t with
  | nil => rfl
  | cons j ks ih =>
    rw [insertAll, ih _ fun j' hj' => hk j' (List.mem_cons_of_mem j hj'),
      lookup_insert_other w j k t (vf j) (hk j (List.mem_cons_self j ks))]

/-- Every key of a distinct in-range key list inserted by `insertAll` into a
trie not yet holding it looks up to its own value. -/
lemma lookupOpt_insertAll_mem {V : Type} (w : Nat) (vf : Nat → V) (ks : List Nat)
    (t : Option (node V)) (k : Nat) (hmem : k ∈ ks) (hnd : ks.Nodup)
    (hlt : ∀ j ∈ ks, j < 2 ^ w) (h0 : lookupOpt w t k = none) :
    lookupOpt w (insertAll w vf ks t) k = some (vf k) := by
  induction ks generalizing t with
  | nil => cases hmem
  | cons j ks ih =>
    rcases List.mem_cons.1 hmem with rfl | hmem'
    · have hself : lookupOpt w (some (insert_or_get w t k (vf k)).1) k = some (vf k) := by
        rw [lookupOpt, lookup_insert_self, insert_val_of_not_found w k t (vf k) h0]
      have hnotin : k ∉ ks := (List.nodup_cons.1 hnd).1
      rw [insertAll, lookupOpt_insertAll_not_mem w vf ks _ k ?_, hself]
      intro j' hj'
      have h1 : j' < 2 ^ w := hlt j' (List.mem_cons_of_mem k hj')
      have h2 : k < 2 ^ w := hlt k (List.mem_cons_self k ks)
      rw [Nat.mod_eq_of_lt h1, Nat.mod_eq_of_lt h2]
      exact fun hEq => hnotin (hEq ▸ hj')
    · have hjk : j ≠ k := by
        rintro rfl
        exact (List.nodup_cons.1 hnd).1 hmem'
      rw [insertAll]
      refine ih (some (insert_or_get w t j (vf j)).1) hmem' (List.nodup_cons.1 hnd).2
        (fun j' hj' => hlt j' (List.mem_cons_of_mem j hj')) ?_
      have h1 : j < 2 ^ w := hlt j (List.mem_cons_self j ks)
      have h2 : k < 2 ^ w := hlt k (List.mem_cons_of_mem j hmem')
      rw [lookup_insert_other w j k t (vf j) ?_, h0]
      rw [Nat.mod_eq_of_lt h1, Nat.mod_eq_of_lt h2]
      exact hjk

/-! ### Claims C2 and C3 -/

/-- **C2.** For every sequence of distinct keys (each within the key width,
32 for host addresses and 16 for ports) inserted into an initially empty
trie, every inserted key is afterwards found by `lookup` (with its own
value), and `enumerate` yields exactly the set of inserted keys — each key
exactly once — in ascending numeric order. -/
theorem C2_trie_insert_lookup_enumerate {V : Type} (w : Nat) (vf : Nat → V)
    (ks : List Nat) (hnd : ks.Nodup) (hlt : ∀ k ∈ ks, k < 2 ^ w) :
    (∀ k ∈ ks, lookupOpt w (insertAll w vf ks none) k = some (vf k)) ∧
    (∀ k v, (k, v) ∈ enumerate w (insertAll w vf ks none) 0 ↔ k ∈ ks ∧ v = vf k) ∧
    (enumerate w (insertAll w vf ks none) 0).Pairwise (fun a b => a.1 < b.1) := by
  have hfind : ∀ k ∈ ks, lookupOpt w (insertAll w vf ks none) k = some (vf k) :=
    fun k hk => lookupOpt_insertAll_mem w vf ks none k hk hnd hlt rfl
  refine ⟨hfind, ?_, enumerate_pairwise w _ 0⟩
  intro k v
  rw [mem_enumerate]
  constructor
  · rintro ⟨low, hlow, hk, hl⟩
    obtain rfl : k = low := by omega
    by_cases hmem : k ∈ ks
    · have hv := hfind k hmem
      rw [hl] at hv
      exact ⟨hmem, Option.some.inj hv⟩
    · rw [lookupOpt_insertAll_not_mem w vf ks none k ?_] at hl
      · simp [lookupOpt] at hl
      · intro j hj
        rw [Nat.mod_eq_of_lt (hlt j hj), Nat.mod_eq_of_lt hlow]
        exact fun hEq => hmem (hEq ▸ hj)
  · rintro ⟨hmem, rfl⟩
    exact ⟨k, hlt k hmem, by omega, hfind k hmem⟩

/-- Witness for C2: width 16 (ports), keys 5, 3, 40000. -/
theorem C2_witness :
    ([5, 3, 40000] : List Nat).Nodup ∧ (∀ k ∈ ([5, 3, 40000] : List Nat), k < 2 ^ 16) ∧
    ((∀ k ∈ ([5, 3, 40000] : List Nat),
        lookupOpt 16 (insertAll 16 (fun k => k) [5, 3, 40000] none) k = some k) ∧
      (∀ k v, (k, v) ∈ enumerate 16 (insertAll 16 (fun k => k) [5, 3, 40000] none) 0 ↔
        k ∈ ([5, 3, 40000] : List Nat) ∧ v = k) ∧
      (enumerate 16 (insertAll 16 (fun k => k) [5, 3, 40000] none) 0).Pairwise
        (fun a b => a.1 < b.1)) :=
  ⟨by decide, by decide,
    C2_trie_insert_lookup_enumerate 16 (fun k => k) [5, 3, 40000] (by decide) (by decide)⟩

/-- **C3.** Trie insertion is idempotent: `insert_or_get` on a key already
present returns the existing leaf's value and the structurally unchanged trie
(no new nodes), and inserting a key twice yields the same structure and value
as inserting it once. -/
theorem C3_insert_idempotent {V : Type} (w k : Nat) (n : node V) (v0 v : V)
    (h : lookup w n k = some v0) :
    insert_or_get w (some n) k v = (n, v0) ∧
    ∀ (t : Option (node V)) (v1 v2 : V),
      insert_or_get w (some (insert_or_get w t k v1).1) k v2 = insert_or_get w t k v1 := by
  refine ⟨insert_of_lookup_some w k n v0 v h, fun t v1 v2 => ?_⟩
  exact insert_of_lookup_some w k (insert_or_get w t k v1).1 (insert_or_get w t k v1).2 v2
    (lookup_insert_self w k t v1)

/-- Concrete three-level trie holding key 5 with value 99. -/
def trieC3 : node Nat := (insert_or_get 3 (none : Option (node Nat)) 5 99).1

/-- Witness for C3: re-inserting key 5 into `trieC3` returns the existing
value 99 and leaves the trie unchanged. -/
theorem C3_witness :
    lookup 3 trieC3 5 = some 99 ∧
    (insert_or_get 3 (some trieC3) 5 7 = (trieC3, 99) ∧
      ∀ (t : Option (node Nat)) (v1 v2 : Nat),
        insert_or_get 3 (some (insert_or_get 3 t 5 v1).1) 5 v2 = insert_or_get 3 t 5 v1) :=
  ⟨rfl, C3_insert_idempotent 3 5 trieC3 99 7 rfl⟩

/-! ### Interval rotation (claim C4) -/

/-- Interval bookkeeping of `graph_t` (`interval_idx`, `interval_cnt`,
`interval_first`) together with one host's circular buffer of per-interval
SYN counts (`host_t.intervals`, an array of `intvl_t.syn_packets` doubles
modelled as rationals, of length `params_t.intvl_max`). -/
structure IntervalState where
  interval_idx : Nat
  interval_cnt : Nat
  interval_first : Int
  syn : List ℚ

/-- Modelled from the spec: the interval-rotation step of `HostGraph.tick`
(`tick` is not in `src/`; `graph_t.interval_idx`/`interval_cnt` and `intvl_t`
are in `main.h`).  Advances the circular index to
`(interval_idx + 1) mod intvl_max`, zeroes the newly current slot, increments
`interval_cnt` and starts the next interval at `now`. -/
def rotateInterval (intvl_max : Nat) (now : Int) (s : IntervalState) : IntervalState :=
  { interval_idx := (s.interval_idx + 1) % intvl_max
    interval_cnt := s.interval_cnt + 1
    interval_first := now
    syn := s.syn.set ((s.interval_idx + 1) % intvl_max) 0 }

/-- Modelled from the spec: the interval check of `HostGraph.tick` — the
rotation fires exactly when `now - interval_first ≥ interval_length`. -/
def tickInterval (intvl_max : Nat) (interval_length now : Int) (s : IntervalState) :
    IntervalState :=
  if now - s.interval_first ≥ interval_length then rotateInterval intvl_max now s else s

/-- A sequence of rotations at the given instants. -/
def rotateMany (intvl_max : Nat) (ts : List Int) (s : IntervalState) : IntervalState :=
  ts.foldl (fun s' t => rotateInterval intvl_max t s') s

/-- The circular index after a run of rotations is the start index shifted by
their number, modulo `intvl_max`. -/
lemma rotateMany_idx (m : Nat) (hm : 0 < m) (ts : List Int) (s : IntervalState)
    (h : s.interval_idx < m) :
    (rotateMany m ts s).interval_idx = (s.interval_idx + ts.length) % m := by
  induction ts generalizing s with
  | nil => simp [rotateMany, Nat.mod_eq_of_lt h]
  | cons t ts ih =>
    have h' : (s.interval_idx + 1) % m < m := Nat.mod_lt _ hm
    have step : rotateMany m (t :: ts) s = rotateMany m ts (rotateInterval m t s) := rfl
    rw [step, ih (rotateInterval m t s) h']
    show ((s.interval_idx + 1) % m + ts.length) % m = (s.interval_idx + (ts.length + 1)) % m
    rw [Nat.mod_add_mod]
    congr 1
    omega

/-- **C4.** Interval rotation in `tick` is cyclic with period `intvl_max`:
whenever `now - interval_first ≥ interval_length` the rotation fires, setting
`interval_idx` to `(interval_idx + 1) mod intvl_max`, zeroing the newly
current slot and incrementing `interval_cnt`; slots other than the newly
current one are untouched (so a count rotated out of the horizon never shows
up in a newer slot — the slot it would reappear in is exactly the one that is
zeroed); and after exactly `intvl_max` rotations the current index equals the
index it started at. -/
theorem C4_interval_rotation_cyclic (m : Nat) (interval_length now : Int)
    (s : IntervalState) (ts : List Int) (hm : 0 < m) (hidx : s.interval_idx < m)
    (hlen : s.syn.length = m) (hdue : now - s.interval_first ≥ interval_length)
    (hts : ts.length = m) :
    tickInterval m interval_length now s = rotateInterval m now s ∧
    (rotateInterval m now s).interval_idx = (s.interval_idx + 1) % m ∧
    (rotateInterval m now s).interval_cnt = s.interval_cnt + 1 ∧
    (rotateInterval m now s).syn[(s.interval_idx + 1) % m]? = some 0 ∧
    (∀ j, j ≠ (s.interval_idx + 1) % m → (rotateInterval m now s).syn[j]? = s.syn[j]?) ∧
    (rotateMany m ts s).interval_idx = s.interval_idx := by
  refine ⟨if_pos hdue, rfl, rfl, ?_, ?_, ?_⟩
  · exact List.getElem?_set_self (by rw [hlen]; exact Nat.mod_lt _ hm)
  · intro j hj
    exact List.getElem?_set_ne fun h => hj h.symm
  · rw [rotateMany_idx m hm ts s hidx, hts, Nat.add_mod_right]
    exact Nat.mod_eq_of_lt hidx

/-- Concrete interval state for the C4 witness: index 0 of 3 slots. -/
def intervalC4 : IntervalState := ⟨0, 0, 0, [1, 2, 3]⟩

/-- Witness for C4: three slots, rotation due at `now = 60` with interval
length 60, and three rotations returning the index to its start. -/
theorem C4_witness :
    (0 : Nat) < 3 ∧ intervalC4.interval_idx < 3 ∧ intervalC4.syn.length = 3 ∧
    ((60 : Int) - intervalC4.interval_first ≥ 60) ∧
    ([(60 : Int), 120, 180] : List Int).length = 3 ∧
    (tickInterval 3 60 60 intervalC4 = rotateInterval 3 60 intervalC4 ∧
      (rotateInterval 3 60 intervalC4).interval_idx = (intervalC4.interval_idx + 1) % 3 ∧
      (rotateInterval 3 60 intervalC4).interval_cnt = intervalC4.interval_cnt + 1 ∧
      (rotateInterval 3 60 intervalC4).syn[(intervalC4.interval_idx + 1) % 3]? = some 0 ∧
      (∀ j, j ≠ (intervalC4.interval_idx + 1) % 3 →
        (rotateInterval 3 60 intervalC4).syn[j]? = intervalC4.syn[j]?) ∧
      (rotateMany 3 [60, 120, 180] intervalC4).interval_idx = intervalC4.interval_idx) :=
  ⟨by decide, by decide, by decide, by decide, by decide,
    C4_interval_rotation_cyclic 3 60 60 intervalC4 [60, 120, 180]
      (by decide) (by decide) (by decide) (by decide) (by decide)⟩

/-! ### Hosts, port trackers and the clusterer (claims C5, C6, C7, C10) -/

/-- `port_t`: a destination port number and its access count. -/
structure port where
  port_num : Nat
  accesses : Nat

/-- `extra_t`: the per-host PortScanTracker — the distinct-port count
`ports_cnt`, the capacity `ports_max` of the growable array, the root of the
port trie, and the backing array of port structures; the trie's leaf values
are indices into that array (the C stores `port_t *` pointers). -/
structure extra where
  ports_cnt : Nat
  ports_max : Nat
  root : Option (node Nat)
  ports : List port

/-- `host_t`: IP address, status flag, examination level, assigned cluster,
distance to the nearest centroid, cumulative access count, the per-interval
SYN buffer (doubles as rationals) and the optional extra port tracker. -/
structure host where
  ip : Nat
  stat : Nat
  level : Nat
  cluster : Nat
  distance : ℚ
  accesses : Nat
  intervals : List ℚ
  extra : Option extra

/-- Squared Euclidean distance between two interval vectors: the sum over
intervals of squared differences, with the `square` macro of `main.h`. -/
def sqDist (xs ys : List ℚ) : ℚ := (List.zipWith (fun a b => square (a - b)) xs ys).sum

/-- Modelled from the spec: the per-host assignment step of the k-means
iteration (the clusterer is not in `src/`; `cluster_t`, `host_t.cluster`,
`host_t.distance` and the `square` macro are in `main.h`).  Returns the index
of the centroid at minimum squared Euclidean distance from `v` together with
that distance, ties broken towards the lower cluster index. -/
def nearestCluster (v : List ℚ) : List (List ℚ) → Nat × ℚ
  | [] => (0, 0)
  | [c] => (0, sqDist v c)
  | c :: c' :: cs =>
    let best := nearestCluster v (c' :: cs)
    let d := sqDist v c
    if d ≤ best.2 then (0, d) else (best.1 + 1, best.2)

/-- Modelled from the spec: assigning one host records the winning cluster in
`host_t.cluster` and the winning distance in `host_t.distance`. -/
def assignHost (cs : List (List ℚ)) (h : host) : host :=
  { h with cluster := (nearestCluster h.intervals cs).1
           distance := (nearestCluster h.intervals cs).2 }

/-- One assignment pass over all hosts. -/
def assignAll (cs : List (List ℚ)) (hosts : List host) : List host :=
  hosts.map (assignHost cs)

/-- Hosts currently assigned to cluster `j`. -/
def members (hosts : List host) (j : Nat) : List host :=
  hosts.filter (fun h => h.cluster == j)

/-- `cluster_t.hosts_cnt` recomputed from the assignment. -/
def memberCount (hosts : List host) (j : Nat) : Nat := (members hosts j).length

/-- Coordinate-wise sum of interval vectors of length `m`. -/
def vecSum (m : Nat) (vs : List (List ℚ)) : List ℚ :=
  vs.foldl (fun acc v => List.zipWith (fun a b => a + b) acc v) (List.replicate m 0)

/-- Modelled from the spec: centroid update — the coordinate-wise mean of the
members' vectors, an empty cluster keeping its previous centroid. -/
def updateCentroid (m : Nat) (hosts : List host) (j : Nat) (old : List ℚ) : List ℚ :=
  let mem := members hosts j
  if mem.length = 0 then old
  else (vecSum m (mem.map host.intervals)).map (fun x => x / (mem.length : ℚ))

/-- `cluster_t.dev` recomputed: sum of squared deviations of the members of
cluster `j` from its centroid. -/
def clusterDev (hosts : List host) (j : Nat) (c : List ℚ) : ℚ :=
  ((members hosts j).map (fun h => sqDist h.intervals c)).sum

/-- Mean per-member deviation of cluster `j`. -/
def meanDev (hosts : List host) (j : Nat) (c : List ℚ) : ℚ :=
  clusterDev hosts j c / (memberCount hosts j : ℚ)

/-- One k-means iteration: assign every host to its nearest centroid, then
recompute the centroids from the new memberships. -/
def kmeansStep (m : Nat) (hosts : List host) (cs : List (List ℚ)) :
    List host × List (List ℚ) :=
  let hosts' := assignAll cs hosts
  (hosts', cs.mapIdx fun j c => updateCentroid m hosts' j c)

/-- Modelled from the spec: the k-means loop — iterate until no host changes
cluster or the iteration bound runs out (non-convergence is not an error). -/
def kmeansLoop (m : Nat) : Nat → List host → List (List ℚ) → List host × List (List ℚ)
  | 0, hosts, cs => (hosts, cs)
  | fuel + 1, hosts, cs =>
    let p := kmeansStep m hosts cs
    if p.1.map host.cluster = hosts.map host.cluster then p
    else kmeansLoop m fuel p.1 p.2

/-- The interval vector with the largest SYN-count sum (first on ties). -/
def maxSynVec (h0 : host) (hs : List host) : List ℚ :=
  (hs.foldl (fun best h => if h.intervals.sum > best.intervals.sum then h else best) h0).intervals

/-- Modelled from the spec: deterministic seeding — centroid 0 is the zero
vector, centroid 1 the interval vector of the host with largest SYN sum. -/
def seedCentroids (m : Nat) (hosts : List host) : List (List ℚ) :=
  match hosts with
  | [] => [List.replicate m 0, List.replicate m 0]
  | h0 :: hs => [List.replicate m 0, maxSynVec h0 hs]

/-- Modelled from the spec: classification — with two clusters, the one with
member count below the minimum-observations threshold `obs`, or, when both
meet the threshold, the one with the higher mean per-member deviation, is the
attack cluster. -/
def attackCluster (obs : Nat) (hosts : List host) (c0 c1 : List ℚ) : Nat :=
  if memberCount hosts 0 < obs then 0
  else if memberCount hosts 1 < obs then 1
  else if meanDev hosts 0 c0 > meanDev hosts 1 c1 then 0 else 1

/-- Modelled from the spec: every host of the attack cluster has its status
flag set (SYN-flood attacker for this window), every other host's cleared. -/
def classify (obs : Nat) (hosts : List host) (c0 c1 : List ℚ) : List host :=
  hosts.map fun h =>
    { h with stat := if h.cluster = attackCluster obs hosts c0 c1 then 1 else 0 }

/-- Modelled from the spec: the Clusterer invocation at a window boundary.
With fewer hosts than `k` clustering is skipped: every host is left exactly
as it was and `none` is returned in place of a clustering result, reporting
every host unclassified for this window.  Otherwise k-means runs from the
deterministic seeding and the hosts are classified. -/
def clusterWindow (m k obs iter_max : Nat) (hosts : List host) :
    List host × Option (List (List ℚ)) :=
  if hosts.length < k then (hosts, none)
  else
    let p := kmeansLoop m iter_max hosts (seedCentroids m hosts)
    (classify obs p.1 (p.2.getD 0 []) (p.2.getD 1 []), some p.2)

/-- Specification of `nearestCluster`: the returned index is in range, the
returned distance is realised at that index, it is minimal over all
centroids, and every strictly earlier centroid is strictly farther (so ties
go to the lower index). -/
lemma nearest_spec (v : List ℚ) : ∀ cs : List (List ℚ), cs ≠ [] →
    (nearestCluster v cs).1 < cs.length ∧
    (nearestCluster v cs).2 = sqDist v (cs.getD (nearestCluster v cs).1 []) ∧
    (∀ j, j < cs.length → (nearestCluster v cs).2 ≤ sqDist v (cs.getD j [])) ∧
    (∀ j, j < (nearestCluster v cs).1 → (nearestCluster v cs).2 < sqDist v (cs.getD j []))
  | [], h => absurd rfl h
  | [c], _ => by
    refine ⟨by simp [nearestCluster], by simp [nearestCluster], ?_, ?_⟩
    · intro j hj
      have hj0 : j = 0 := by simpa using hj
      subst hj0
      simp [nearestCluster]
    · intro j hj
      simp [nearestCluster] at hj
  | c :: c' :: cs, _ => by
    obtain ⟨ih1, ih2, ih3, ih4⟩ := nearest_spec v (c' :: cs) (by simp)
    by_cases hle : sqDist v c ≤ (nearestCluster v (c' :: cs)).2
    · have heq : nearestCluster v (c :: c' :: cs) = (0, sqDist v c) := by
        simp [nearestCluster, hle]
      refine ⟨by simp [heq], by simp [heq], ?_, by simp [heq]⟩
      intro j hj
      rw [heq]
      match j with
      | 0 => simp
      | j + 1 =>
        have hj' : j < (c' :: cs).length := by simpa using hj
        calc sqDist v c ≤ (nearestCluster v (c' :: cs)).2 := hle
          _ ≤ sqDist v ((c' :: cs).getD j []) := ih3 j hj'
          _ = sqDist v ((c :: c' :: cs).getD (j + 1) []) := by rw [List.getD_cons_succ]
    · have hlt : (nearestCluster v (c' :: cs)).2 < sqDist v c := lt_of_not_le hle
      have heq : nearestCluster v (c :: c' :: cs) =
          ((nearestCluster v (c' :: cs)).1 + 1, (nearestCluster v (c' :: cs)).2) := by
        simp [nearestCluster, hle]
      refine ⟨?_, ?_, ?_, ?_⟩
      · rw [heq]
        simpa using ih1
      · rw [heq]
        simpa using ih2
      · intro j hj
        rw [heq]
        match j with
        | 0 => simpa using hlt.le
        | j + 1 =>
          have hj' : j < (c' :: cs).length := by simpa using hj
          simpa using ih3 j hj'
      · intro j hj
        rw [heq] at hj ⊢
        match j with
        | 0 => simpa using hlt
        | j + 1 =>
          have hj' : j < (nearestCluster v (c' :: cs)).1 := by simpa using hj
          simpa using ih4 j hj'

/-- **C5.** When a window boundary invokes the Clusterer with fewer hosts
than the configured cluster count `k`, clustering is skipped for that window
(`none` is returned in place of a clustering result, reporting every host
unclassified), and no host's previously assigned cluster, distance or attack
flag is altered. -/
theorem C5_degenerate_clustering (m k obs iter_max : Nat) (hosts : List host)
    (hfew : hosts.length < k) :
    clusterWindow m k obs iter_max hosts = (hosts, none) ∧
    (clusterWindow m k obs iter_max hosts).1.map host.cluster = hosts.map host.cluster ∧
    (clusterWindow m k obs iter_max hosts).1.map host.distance = hosts.map host.distance ∧
    (clusterWindow m k obs iter_max hosts).1.map host.stat = hosts.map host.stat := by
  have heq : clusterWindow m k obs iter_max hosts = (hosts, none) := by
    simp [clusterWindow, hfew]
  exact ⟨heq, by rw [heq], by rw [heq], by rw [heq]⟩

/-- Concrete host with a previous assignment (cluster 3, distance 5, flag 1)
for the C5 witness. -/
def hostC5 : host := ⟨7, 1, 1, 3, 5, 2, [1, 2], none⟩

/-- Witness for C5: one host, `k = CLUSTERS = 2` — clustering is skipped and
the host record is untouched. -/
theorem C5_witness :
    ([hostC5].length < 2) ∧
    (clusterWindow 2 2 2 10 [hostC5] = ([hostC5], none) ∧
      (clusterWindow 2 2 2 10 [hostC5]).1.map host.cluster = [hostC5].map host.cluster ∧
      (clusterWindow 2 2 2 10 [hostC5]).1.map host.distance = [hostC5].map host.distance ∧
      (clusterWindow 2 2 2 10 [hostC5]).1.map host.stat = [hostC5].map host.stat) :=
  ⟨by decide, C5_degenerate_clustering 2 2 2 10 [hostC5] (by decide)⟩

/-- **C6.** In a k-means iteration each host is assigned to the cluster whose
centroid is at minimum squared Euclidean distance (sum over intervals of
squared differences) from the host's interval vector, ties broken towards
the lower cluster index (every strictly earlier centroid is strictly
farther), and the winning distance is recorded in `host_t.distance`. -/
theorem C6_kmeans_assignment (v : List ℚ) (cs : List (List ℚ)) (hne : cs ≠ [])
    (h : host) (hv : h.intervals = v) :
    (nearestCluster v cs).1 < cs.length ∧
    (nearestCluster v cs).2 = sqDist v (cs.getD (nearestCluster v cs).1 []) ∧
    (∀ j, j < cs.length → (nearestCluster v cs).2 ≤ sqDist v (cs.getD j [])) ∧
    (∀ j, j < (nearestCluster v cs).1 → (nearestCluster v cs).2 < sqDist v (cs.getD j [])) ∧
    (assignHost cs h).cluster = (nearestCluster v cs).1 ∧
    (assignHost cs h).distance = (nearestCluster v cs).2 := by
  obtain ⟨h1, h2, h3, h4⟩ := nearest_spec v cs hne
  exact ⟨h1, h2, h3, h4, by simp [assignHost, hv], by simp [assignHost, hv]⟩

/-- Concrete host for the C6 witness. -/
def hostC6 : host := ⟨1, 0, 1, 0, 0, 0, [3, 4], none⟩

/-- Witness for C6 at `v = [3, 4]`, centroids `[[0, 0], [3, 4]]`. -/
theorem C6_witness :
    ([[0, 0], [3, 4]] : List (List ℚ)) ≠ [] ∧ hostC6.intervals = [3, 4] ∧
    ((nearestCluster [3, 4] [[0, 0], [3, 4]]).1 < 2 ∧
      (nearestCluster [3, 4] [[0, 0], [3, 4]]).2 =
        sqDist [3, 4] (([[0, 0], [3, 4]] : List (List ℚ)).getD
          (nearestCluster [3, 4] [[0, 0], [3, 4]]).1 []) ∧
      (∀ j, j < 2 → (nearestCluster [3, 4] [[0, 0], [3, 4]]).2 ≤
        sqDist [3, 4] (([[0, 0], [3, 4]] : List (List ℚ)).getD j [])) ∧
      (∀ j, j < (nearestCluster [3, 4] [[0, 0], [3, 4]]).1 →
        (nearestCluster [3, 4] [[0, 0], [3, 4]]).2 <
          sqDist [3, 4] (([[0, 0], [3, 4]] : List (List ℚ)).getD j [])) ∧
      (assignHost [[0, 0], [3, 4]] hostC6).cluster = (nearestCluster [3, 4] [[0, 0], [3, 4]]).1 ∧
      (assignHost [[0, 0], [3, 4]] hostC6).distance = (nearestCluster [3, 4] [[0, 0], [3, 4]]).2) :=
  ⟨by simp, rfl, C6_kmeans_assignment [3, 4] [[0, 0], [3, 4]] (by simp) hostC6 rfl⟩

/-- **C7.** The cluster whose member count is below the minimum-observations
threshold — or, when both clusters meet the threshold, the one with higher
mean per-member deviation — is designated the attack cluster; after
`classify`, a host's attack flag is set exactly when it is assigned to that
cluster (all other hosts are benign), and no host changes cluster. -/
theorem C7_attack_classification (obs : Nat) (hosts : List host) (c0 c1 : List ℚ) :
    (memberCount hosts 0 < obs → attackCluster obs hosts c0 c1 = 0) ∧
    (obs ≤ memberCount hosts 0 → memberCount hosts 1 < obs →
      attackCluster obs hosts c0 c1 = 1) ∧
    (obs ≤ memberCount hosts 0 → obs ≤ memberCount hosts 1 →
      meanDev hosts 0 c0 > meanDev hosts 1 c1 → attackCluster obs hosts c0 c1 = 0) ∧
    (obs ≤ memberCount hosts 0 → obs ≤ memberCount hosts 1 →
      meanDev hosts 1 c1 > meanDev hosts 0 c0 → attackCluster obs hosts c0 c1 = 1) ∧
    (∀ h' ∈ classify obs hosts c0 c1,
      h'.stat = 1 ↔ h'.cluster = attackCluster obs hosts c0 c1) ∧
    (classify obs hosts c0 c1).map host.cluster = hosts.map host.cluster := by
  refine ⟨?_, ?_, ?_, ?_, ?_, ?_⟩
  · intro h0
    simp [attackCluster, h0]
  · intro h0 h1
    simp [attackCluster, Nat.not_lt.mpr h0, h1]
  · intro h0 h1 hgt
    simp [attackCluster, Nat.not_lt.mpr h0, Nat.not_lt.mpr h1, hgt]
  · intro h0 h1 hgt
    simp [attackCluster, Nat.not_lt.mpr h0, Nat.not_lt.mpr h1, not_lt.mpr hgt.le]
  · intro h' hm
    obtain ⟨h, hmem, rfl⟩ := List.mem_map.1 hm
    by_cases hc : h.cluster = attackCluster obs hosts c0 c1 <;> simp [hc]
  · simp only [classify, List.map_map]
    rfl

/-- Hosts for the C7 witness: one host in cluster 0, two in cluster 1. -/
def hostsC7 : List host :=
  [⟨1, 0, 1, 0, 0, 0, [1], none⟩, ⟨2, 0, 1, 1, 0, 0, [2], none⟩, ⟨3, 0, 1, 1, 0, 0, [3], none⟩]

/-- Witness for C7: with threshold `OBSERVATIONS = 2`, the singleton cluster
0 is designated the attack cluster. -/
theorem C7_witness : memberCount hostsC7 0 < 2 ∧ attackCluster 2 hostsC7 [0] [5] = 0 :=
  ⟨by decide, (C7_attack_classification 2 hostsC7 [0] [5]).1 (by decide)⟩

/-! ### Ingestion validation (claim C8) -/

/-- A raw flow record as parsed from the CSV input, before validation: the
numeric fields of `flow_t` as unbounded naturals (a parsed number may exceed
the width of its `flow_t` field). -/
structure rawFlow where
  dst_ip : Nat
  src_ip : Nat
  dst_port : Nat
  src_port : Nat
  protocol : Nat
  time_first : Int
  time_last : Int
  bytes : Nat
  packets : Nat
  syn_flag : Nat

/-- Non-fatal per-record ingestion error of the spec's error model. -/
inductive ingestError where
  | InvalidRecord

/-- The mutable graph state touched by ingestion: host trie (leaf values are
indices into the host list), host list, global port histogram, current
interval index and the count of skipped invalid records. -/
structure ingestState where
  root : Option (node Nat)
  hosts : List host
  ports : List Nat
  interval_idx : Nat
  invalid_cnt : Nat

/-- Modelled from the spec: record validation — every flow field must fit
its `flow_t` width (`InvalidRecord` for malformed or out-of-range fields). -/
def validFlow (r : rawFlow) : Bool :=
  decide (r.dst_ip < 2 ^ BITS_IP4) && decide (r.src_ip < 2 ^ BITS_IP4) &&
    decide (r.dst_port < 2 ^ BITS_PORT) && decide (r.src_port < 2 ^ BITS_PORT) &&
    decide (r.protocol < 2 ^ 8)

/-- A freshly created host record with zeroed buffers at `LEVEL_INFO`. -/
def newHost (ip m : Nat) : host := ⟨ip, 0, 1, 0, 0, 0, List.replicate m 0, none⟩

/-- Update one host on a flow: bump the access count and, on a SYN flag, add
one to the current interval slot. -/
def bumpHost (idx : Nat) (syn : Bool) (h : host) : host :=
  { h with accesses := h.accesses + 1
           intervals := if syn then h.intervals.set idx (h.intervals.getD idx 0 + 1)
                        else h.intervals }

/-- Modelled from the spec: ingestion of a validated flow — resolve (or
create) the destination host through the host trie, bump its counters and
increment the global port histogram at the destination port. -/
def ingestValid (m : Nat) (g : ingestState) (r : rawFlow) : ingestState :=
  let p := insert_or_get BITS_IP4 g.root r.dst_ip g.hosts.length
  let hosts :=
    if p.2 = g.hosts.length then g.hosts ++ [newHost r.dst_ip m] else g.hosts
  { g with root := some p.1
           hosts := hosts.mapIdx fun i h =>
             if i = p.2 then bumpHost g.interval_idx (r.syn_flag ≠ 0) h else h
           ports := g.ports.set r.dst_port (g.ports.getD r.dst_port 0 + 1) }

/-- Modelled from the spec: `ingest` — an invalid record is skipped and
counted as a non-fatal error, leaving all host and port state unchanged; a
valid record is ingested. -/
def ingestFlow (m : Nat) (g : ingestState) (r : rawFlow) :
    ingestState × Option ingestError :=
  if validFlow r then (ingestValid m g r, none)
  else ({ g with invalid_cnt := g.invalid_cnt + 1 }, some ingestError.InvalidRecord)

/-- **C8.** A flow record whose destination port is outside the valid 16-bit
range yields `InvalidRecord`; the record is skipped and counted as a
non-fatal per-record error, and host trie, host list, port histogram and
interval bookkeeping are all left unchanged. -/
theorem C8_invalid_record (m : Nat) (g : ingestState) (r : rawFlow)
    (hport : 2 ^ BITS_PORT ≤ r.dst_port) :
    (ingestFlow m g r).2 = some ingestError.InvalidRecord ∧
    (ingestFlow m g r).1.root = g.root ∧
    (ingestFlow m g r).1.hosts = g.hosts ∧
    (ingestFlow m g r).1.ports = g.ports ∧
    (ingestFlow m g r).1.interval_idx = g.interval_idx ∧
    (ingestFlow m g r).1.invalid_cnt = g.invalid_cnt + 1 := by
  have hv : validFlow r = false := by
    simp [validFlow, Nat.not_lt.mpr hport]
  simp [ingestFlow, hv]

/-- Concrete raw record with `dst_port = 65536`, one past the 16-bit range. -/
def rawC8 : rawFlow := ⟨1, 2, 65536, 3, 6, 0, 0, 10, 1, 1⟩

/-- Concrete pre-ingestion state for the C8 witness. -/
def stateC8 : ingestState := ⟨none, [], [0, 0, 0], 0, 0⟩

/-- Witness for C8 on the record with `dst_port = 65536`. -/
theorem C8_witness :
    2 ^ BITS_PORT ≤ rawC8.dst_port ∧
    ((ingestFlow 3 stateC8 rawC8).2 = some ingestError.InvalidRecord ∧
      (ingestFlow 3 stateC8 rawC8).1.root = stateC8.root ∧
      (ingestFlow 3 stateC8 rawC8).1.hosts = stateC8.hosts ∧
      (ingestFlow 3 stateC8 rawC8).1.ports = stateC8.ports ∧
      (ingestFlow 3 stateC8 rawC8).1.interval_idx = stateC8.interval_idx ∧
      (ingestFlow 3 stateC8 rawC8).1.invalid_cnt = stateC8.invalid_cnt + 1) :=
  ⟨by unfold BITS_PORT rawC8; decide, C8_invalid_record 3 stateC8 rawC8 (by unfold BITS_PORT rawC8; decide)⟩

/-! ### Host array growth (claim C9) -/

/-- The graph's host storage per the spec's data model: `graph_t.hosts` is an
array of pointers (`host_t **`) into pointer-stable storage, with capacity
`hosts_max` and `hosts_cnt` current entries.  A handle, as the trie stores
one, is a never-reused index into the stable storage `store`; growth touches
only the capacity, never an existing record. -/
structure hostArray where
  store : List host
  hosts_max : Nat

/-- Modelled from the spec: appending a host, doubling the capacity when the
array is full (`HOSTS_INIT` being the initial capacity); returns the new
state and the handle of the stored record. -/
def addHost (g : hostArray) (h : host) : hostArray × Nat :=
  let g' : hostArray :=
    if g.store.length = g.hosts_max then { g with hosts_max := 2 * g.hosts_max } else g
  ({ g' with store := g'.store ++ [h] }, g'.store.length)

/-- A whole sequence of host insertions. -/
def addHosts (g : hostArray) (hs : List host) : hostArray :=
  hs.foldl (fun g' h => (addHost g' h).1) g

/-- One insertion never disturbs an existing record. -/
lemma addHost_stable (g : hostArray) (h : host) (i : Nat) (hi : i < g.store.length) :
    (addHost g h).1.store[i]? = g.store[i]? := by
  by_cases hfull : g.store.length = g.hosts_max <;>
    simp [addHost, hfull, List.getElem?_append_left hi]

/-- Insertion grows the store by exactly one record. -/
lemma addHost_length (g : hostArray) (h : host) :
    (addHost g h).1.store.length = g.store.length + 1 := by
  by_cases hfull : g.store.length = g.hosts_max <;> simp [addHost, hfull]

/-- **C9.** A sequence of host insertions, including ones that grow the
array past its capacity, never invalidates a previously returned handle:
the record at any existing index is unchanged after arbitrarily many
insertions; growth at a full array doubles only the capacity; and `addHost`
returns a handle that refers to the record just stored. -/
theorem C9_host_growth_stable (g : hostArray) (hs : List host) (i : Nat)
    (hi : i < g.store.length) :
    (addHosts g hs).store[i]? = g.store[i]? ∧
    (∀ h, g.store.length = g.hosts_max → (addHost g h).1.hosts_max = 2 * g.hosts_max) ∧
    (∀ h, (addHost g h).2 = g.store.length ∧
      (addHost g h).1.store[(addHost g h).2]? = some h) := by
  refine ⟨?_, ?_, ?_⟩
  · induction hs generalizing g with
    | nil => rfl
    | cons h hs ih =>
      have hstep : addHosts g (h :: hs) = addHosts (addHost g h).1 hs := rfl
      rw [hstep, ih (addHost g h).1 (by rw [addHost_length]; omega),
        addHost_stable g h i hi]
  · intro h hfull
    simp [addHost, hfull]
  · intro h
    constructor
    · by_cases hfull : g.store.length = g.hosts_max <;> simp [addHost, hfull]
    · by_cases hfull : g.store.length = g.hosts_max <;>
        simp [addHost, hfull, List.getElem?_concat_length]

/-- Concrete full one-record host array for the C9 witness. -/
def arrayC9 : hostArray := ⟨[⟨9, 0, 1, 0, 0, 0, [0], none⟩], 1⟩

/-- Witness for C9: two further insertions into a full one-slot array leave
the record at handle 0 untouched. -/
theorem C9_witness :
    (0 : Nat) < arrayC9.store.length ∧
    ((addHosts arrayC9 [hostC5, hostC6]).store[0]? = arrayC9.store[0]? ∧
      (∀ h, arrayC9.store.length = arrayC9.hosts_max →
        (addHost arrayC9 h).1.hosts_max = 2 * arrayC9.hosts_max) ∧
      (∀ h, (addHost arrayC9 h).2 = arrayC9.store.length ∧
        (addHost arrayC9 h).1.store[(addHost arrayC9 h).2]? = some h)) :=
  ⟨by decide, C9_host_growth_stable arrayC9 [hostC5, hostC6] 0 (by decide)⟩

/-! ### PortScanTracker invariant (claim C10) -/

/-- Inserting an absent key adds exactly one leaf to the trie. -/
lemma leafCount_insert_fresh {V : Type} (w k : Nat) (t : Option (node V)) (v : V)
    (h : lookupOpt w t k = none) :
    leafCount w (some (insert_or_get w t k v).1) = leafCount w t + 1 := by
  induction w generalizing t with
  | zero =>
    match t with
    | none => simp [insert_or_get, leafCount]
    | some (node.mk l r none) => simp [insert_or_get, leafCount]
    | some (node.mk l r (some v0)) => simp [lookupOpt, lookup] at h
  | succ w ih =>
    match t with
    | none =>
      have h0 : lookupOpt w (none : Option (node V)) k = none := rfl
      cases hb : k.testBit w with
      | true => simp [insert_or_get, leafCount, hb, ih none h0]
      | false => simp [insert_or_get, leafCount, hb, ih none h0]
    | some (node.mk l r val) =>
      cases hb : k.testBit w with
      | true =>
        have hl : lookupOpt w l k = none := by
          cases l with
          | none => rfl
          | some c => simpa [lookupOpt, lookup, hb] using h
        have hrec := ih l hl
        simp only [insert_or_get, leafCount, hb, if_true]
        omega
      | false =>
        have hr : lookupOpt w r k = none := by
          cases r with
          | none => rfl
          | some c => simpa [lookupOpt, lookup, hb] using h
        have hrec := ih r hr
        simp only [insert_or_get, leafCount, hb, Bool.false_eq_true, if_false]
        omega

/-- A fresh PortScanTracker: no ports, `PORTS_INIT` capacity, empty trie and
empty backing array. -/
def extraInit : extra := ⟨0, PORTS_INIT, none, []⟩

/-- Modelled from the spec: port insertion on ingest for a `LEVEL_TRACE`
host (the routine is not in `src/`; `extra_t` and `port_t` are in `main.h`):
look the destination port up in the port trie; a hit bumps the existing
entry's access count in place, a miss appends a fresh `(port, 1)` entry to
the backing array (doubling `ports_max` when full), stores its index in the
new leaf and increments `ports_cnt`. -/
def extraInsertPort (e : extra) (p : Nat) : extra :=
  match lookupOpt BITS_PORT e.root p with
  | some i =>
    let q := e.ports.getD i ⟨0, 0⟩
    { e with ports := e.ports.set i ⟨q.port_num, q.accesses + 1⟩ }
  | none =>
    { ports_cnt := e.ports_cnt + 1
      ports_max := if e.ports.length = e.ports_max then 2 * e.ports_max else e.ports_max
      root := some (insert_or_get BITS_PORT e.root p e.ports.length).1
      ports := e.ports ++ [⟨p, 1⟩] }

/-- Modelled from the spec: the port-window flush frees and reallocates a
`LEVEL_TRACE` host's tracker (and a graph-level free releases it outright):
the surviving tracker is fresh, with a zero distinct-port count. -/
def extraFlush (_e : extra) : extra := extraInit

/-- The PortScanTracker invariant of the spec's data model: the
distinct-port count equals the number of leaves of the port trie and the
length of the backing array. -/
def extraInv (e : extra) : Prop :=
  e.ports_cnt = leafCount BITS_PORT e.root ∧ e.ports_cnt = e.ports.length

/-- **C10.** Every PortScanTracker operation — port insertion on ingest,
port-window flush, allocation of a fresh tracker — preserves the invariant
`distinct_ports = number of trie leaves = length of the backing array`. -/
theorem C10_tracker_invariant (e : extra) (p : Nat) (hinv : extraInv e) :
    extraInv (extraInsertPort e p) ∧ extraInv (extraFlush e) ∧ extraInv extraInit := by
  obtain ⟨h1, h2⟩ := hinv
  refine ⟨?_, ⟨rfl, rfl⟩, ⟨rfl, rfl⟩⟩
  unfold extraInsertPort
  cases hl : lookupOpt BITS_PORT e.root p with
  | some i => exact ⟨h1, by simpa using h2⟩
  | none =>
    constructor
    · simpa [leafCount_insert_fresh BITS_PORT p e.root e.ports.length hl] using h1
    · simpa using h2

/-- Witness for C10: inserting port 80 into a fresh tracker. -/
theorem C10_witness :
    extraInv extraInit ∧
    (extraInv (extraInsertPort extraInit 80) ∧ extraInv (extraFlush extraInit) ∧
      extraInv extraInit) :=
  ⟨⟨rfl, rfl⟩, C10_tracker_invariant extraInit 80 ⟨rfl, rfl⟩⟩

/-! ### Claim C1 -/

/-- **C1.** The claim asserts that every 16-bit destination port value `p`
(0 through 65535) is a valid index into the global port histogram
`graph_t.ports`, declared with `ALL_PORTS = 65535` entries.  This fails:
`ports[ALL_PORTS]` has valid indices `0 .. 65534` only, while `dst_port` is a
`uint16_t` that can hold 65535, so the increment at `dst_port = 65535` is out
of bounds (the array is one entry short of the 65536 possible port values). -/
theorem C1_port_histogram_index : isPortValue 65535 ∧ ¬ portsIndexInBounds 65535 ∧
    ¬ (∀ p : Nat, isPortValue p → portsIndexInBounds p) := by
  have h1 : isPortValue 65535 := by unfold isPortValue BITS_PORT; decide
  have h2 : ¬ portsIndexInBounds 65535 := by unfold portsIndexInBounds ALL_PORTS; decide
  exact ⟨h1, h2, fun h => absurd (h 65535 h1) h2⟩

end DDoS
